import Mathlib

/-!
Shallow embedding of the parallel bitonic sorter
(`src/ch03/bitonic-sorter/src/parallel.rs`).

A mutable slice `&mut [T]` is embedded as a `List T`; the in-place
functions become functions returning the final contents of the slice.
`rayon::join(f, g)` runs both closures to completion on disjoint halves
of the slice before returning, so its effect on the slice contents is the
pair of the two halves' final contents, independent of scheduling; both
arms of the threshold branch therefore denote the same pair of recursive
calls.
-/

namespace BitonicSorter

/-- Modelled from the spec: the `SortOrder` enum of the crate root
(`super::SortOrder`, not under `src/`), with the two canonical
directions named by the spec and matched on by `sort`. -/
inductive SortOrder where
  | Ascending : SortOrder
  | Descending : SortOrder

/-- `const PARALLEL_THRESHOLD: usize = 4096;` -/
def PARALLEL_THRESHOLD : Nat := 4096

/-- Rust `usize::is_power_of_two`: true iff `n = 2^k` for some `k`
(in particular `0` yields `false`).  Standard-library semantics (its
implementation is not part of this repository), embedded as a bounded
search so that it evaluates by kernel reduction; `2 ^ k = n` forces
`k < n + 1`, so the bound loses nothing. -/
def is_power_of_two (n : Nat) : Bool :=
  (List.range (n + 1)).any (fun k => n == 2 ^ k)

/-- `compare_and_swap`: one compare-and-swap pass over the slice.
For `i in 0..mid_point` it compares `array[i]` with `array[mid_point+i]`
and exchanges them iff the comparator returns `swap_condition`
(`Greater` when ascending, `Less` when descending); positions from
`2*mid_point` on are untouched. -/
def compare_and_swap (xs : List α) (is_asc : Bool) (comparator : α → α → Ordering) :
    List α :=
  let swap_condition := if is_asc then Ordering.gt else Ordering.lt
  let mid_point := xs.length / 2
  let first := xs.take mid_point
  let second := xs.drop mid_point
  (List.zipWith (fun x y => if comparator x y == swap_condition then y else x) first second)
    ++ (List.zipWith (fun x y => if comparator x y == swap_condition then x else y) first second)
    ++ second.drop first.length

theorem length_compare_and_swap (xs : List α) (is_asc : Bool)
    (comparator : α → α → Ordering) :
    (compare_and_swap xs is_asc comparator).length = xs.length := by
  simp only [compare_and_swap, List.length_append, List.length_zipWith,
    List.length_take, List.length_drop]
  omega

/-- `sub_sort`: the merge phase.  A compare-and-swap pass over the whole
subrange, then the same merge on each half.  The threshold branch is the
`rayon::join` path (`mid_point >= PARALLEL_THRESHOLD`); both arms denote
the same two recursive calls on the disjoint halves. -/
def sub_sort (xs : List α) (is_asc : Bool) (comparator : α → α → Ordering) :
    List α :=
  if h : 1 < xs.length then
    let ys := compare_and_swap xs is_asc comparator
    let mid_point := ys.length / 2
    let first := ys.take mid_point
    let second := ys.drop mid_point
    if PARALLEL_THRESHOLD ≤ mid_point then
      sub_sort first is_asc comparator ++ sub_sort second is_asc comparator
    else
      sub_sort first is_asc comparator ++ sub_sort second is_asc comparator
  else
    xs
termination_by xs.length
decreasing_by
  · simp only [List.length_take, length_compare_and_swap]; omega
  · simp only [List.length_drop, length_compare_and_swap]; omega
  · simp only [List.length_take, length_compare_and_swap]; omega
  · simp only [List.length_drop, length_compare_and_swap]; omega

/-- `do_sort`: the recursive bitonic sort.  Construct phase sorts the
first half ascending and the second half descending (concurrently when
`mid_point > PARALLEL_THRESHOLD`, sequentially otherwise — both arms
denote the same halves), then the merge phase (`sub_sort`) runs with the
caller's direction. -/
def do_sort (xs : List α) (is_asc : Bool) (comparator : α → α → Ordering) :
    List α :=
  if h : 1 < xs.length then
    let mid_point := xs.length / 2
    let first := xs.take mid_point
    let second := xs.drop mid_point
    if PARALLEL_THRESHOLD < mid_point then
      sub_sort (do_sort first true comparator ++ do_sort second false comparator)
        is_asc comparator
    else
      sub_sort (do_sort first true comparator ++ do_sort second false comparator)
        is_asc comparator
  else
    xs
termination_by xs.length
decreasing_by
  · simp only [List.length_take]; omega
  · simp only [List.length_drop]; omega
  · simp only [List.length_take]; omega
  · simp only [List.length_drop]; omega

/-- `sort_by (array, comparator) -> Result<(), String>` mutates the slice
in place; the embedding returns the pair (returned `Result`, final slice
contents).  The length is validated first: on failure the error message is
built from the offending length and the slice is left unchanged. -/
def sort_by (xs : List α) (comparator : α → α → Ordering) :
    Except String Unit × List α :=
  if is_power_of_two xs.length then
    (Except.ok (), do_sort xs true comparator)
  else
    (Except.error
      ("The length of x is not a power of two. (x.len(): " ++ toString xs.length ++ ")"),
     xs)

/-- `sort`: dispatches the named direction to `sort_by` with the natural
comparator `a.cmp(b)` (Ascending) or the operand-swapped `b.cmp(a)`
(Descending). -/
def sort [LinearOrder α] (xs : List α) (order : SortOrder) :
    Except String Unit × List α :=
  match order with
  | SortOrder.Ascending => sort_by xs (fun a b => compare a b)
  | SortOrder.Descending => sort_by xs (fun a b => compare b a)

/-- Fuel-indexed execution of the merge phase: each recursive call costs
one unit of fuel, and exhausted fuel yields `none`.  Used to state that
the engine's recursion terminates on every input. -/
def sub_sort_fuel (fuel : Nat) (xs : List α) (is_asc : Bool)
    (comparator : α → α → Ordering) : Option (List α) :=
  if 1 < xs.length then
    match fuel with
    | 0 => none
    | f + 1 =>
      match sub_sort_fuel f ((compare_and_swap xs is_asc comparator).take
              ((compare_and_swap xs is_asc comparator).length / 2)) is_asc comparator,
          sub_sort_fuel f ((compare_and_swap xs is_asc comparator).drop
              ((compare_and_swap xs is_asc comparator).length / 2)) is_asc comparator with
      | some a, some b => some (a ++ b)
      | _, _ => none
  else
    some xs

/-- Fuel-indexed execution of the recursive sort, as `sub_sort_fuel`. -/
def do_sort_fuel (fuel : Nat) (xs : List α) (is_asc : Bool)
    (comparator : α → α → Ordering) : Option (List α) :=
  if 1 < xs.length then
    match fuel with
    | 0 => none
    | f + 1 =>
      match do_sort_fuel f (xs.take (xs.length / 2)) true comparator,
          do_sort_fuel f (xs.drop (xs.length / 2)) false comparator with
      | some a, some b => sub_sort_fuel (f + 1) (a ++ b) is_asc comparator
      | _, _ => none
  else
    some xs

/-- Modelled from the spec: "running the sequential path on the same
input" — the merge phase with no threshold decision, always running the
two halves one after the other. -/
def sub_sort_sequential (xs : List α) (is_asc : Bool)
    (comparator : α → α → Ordering) : List α :=
  if h : 1 < xs.length then
    let ys := compare_and_swap xs is_asc comparator
    let mid_point := ys.length / 2
    sub_sort_sequential (ys.take mid_point) is_asc comparator
      ++ sub_sort_sequential (ys.drop mid_point) is_asc comparator
  else
    xs
termination_by xs.length
decreasing_by
  · simp only [List.length_take, length_compare_and_swap]; omega
  · simp only [List.length_drop, length_compare_and_swap]; omega

/-- Modelled from the spec: the recursive sort with both recursion levels
always run sequentially on one thread, no threshold decision. -/
def do_sort_sequential (xs : List α) (is_asc : Bool)
    (comparator : α → α → Ordering) : List α :=
  if h : 1 < xs.length then
    let mid_point := xs.length / 2
    sub_sort_sequential
      (do_sort_sequential (xs.take mid_point) true comparator
        ++ do_sort_sequential (xs.drop mid_point) false comparator)
      is_asc comparator
  else
    xs
termination_by xs.length
decreasing_by
  · simp only [List.length_take]; omega
  · simp only [List.length_drop]; omega

theorem sub_sort_of_not_lt (xs : List α) (is_asc : Bool) (comparator : α → α → Ordering)
    (h : ¬ 1 < xs.length) : sub_sort xs is_asc comparator = xs := by
  rw [sub_sort, dif_neg h]

theorem sub_sort_of_lt (xs : List α) (is_asc : Bool) (comparator : α → α → Ordering)
    (h : 1 < xs.length) :
    sub_sort xs is_asc comparator =
      sub_sort ((compare_and_swap xs is_asc comparator).take
          ((compare_and_swap xs is_asc comparator).length / 2)) is_asc comparator
        ++ sub_sort ((compare_and_swap xs is_asc comparator).drop
          ((compare_and_swap xs is_asc comparator).length / 2)) is_asc comparator := by
  rw [sub_sort, dif_pos h]
  simp only [ite_self]

theorem do_sort_of_lt (xs : List α) (is_asc : Bool) (comparator : α → α → Ordering)
    (h : 1 < xs.length) :
    do_sort xs is_asc comparator =
      sub_sort (do_sort (xs.take (xs.length / 2)) true comparator
          ++ do_sort (xs.drop (xs.length / 2)) false comparator) is_asc comparator := by
  rw [do_sort, dif_pos h]
  simp only [ite_self]


theorem zipWith_choice_perm (c1 c2 : α → α → α)
    (hc : ∀ x y, (c1 x y = x ∧ c2 x y = y) ∨ (c1 x y = y ∧ c2 x y = x)) :
    ∀ (fh sh : List α), fh.length ≤ sh.length →
      (List.zipWith c1 fh sh ++ (List.zipWith c2 fh sh ++ sh.drop fh.length)).Perm
        (fh ++ sh)
  | [], sh, _ => by simp
  | x :: fh, [], h => by simp at h
  | x :: fh, y :: sh, h => by
    have ih := zipWith_choice_perm c1 c2 hc fh sh (by simpa using h)
    simp only [List.zipWith_cons_cons, List.length_cons, List.drop_succ_cons,
      List.cons_append]
    have step1 :
        (c1 x y :: (List.zipWith c1 fh sh ++ (c2 x y :: (List.zipWith c2 fh sh ++ sh.drop fh.length)))).Perm
          (c1 x y :: c2 x y :: (List.zipWith c1 fh sh ++ (List.zipWith c2 fh sh ++ sh.drop fh.length))) :=
      List.Perm.cons _ List.perm_middle
    have step2 :
        (c1 x y :: c2 x y :: (List.zipWith c1 fh sh ++ (List.zipWith c2 fh sh ++ sh.drop fh.length))).Perm
          (c1 x y :: c2 x y :: (fh ++ sh)) :=
      (ih.cons _).cons _
    have step3 : (c1 x y :: c2 x y :: (fh ++ sh)).Perm (x :: y :: (fh ++ sh)) := by
      rcases hc x y with ⟨h1, h2⟩ | ⟨h1, h2⟩
      · rw [h1, h2]
      · rw [h1, h2]; exact List.Perm.swap _ _ _
    have step4 : (x :: y :: (fh ++ sh)).Perm (x :: (fh ++ y :: sh)) :=
      List.Perm.cons _ List.perm_middle.symm
    exact ((step1.trans step2).trans step3).trans step4

theorem compare_and_swap_perm (xs : List α) (is_asc : Bool)
    (comparator : α → α → Ordering) :
    (compare_and_swap xs is_asc comparator).Perm xs := by
  unfold compare_and_swap
  have h := zipWith_choice_perm
    (fun x y => if comparator x y == (if is_asc then Ordering.gt else Ordering.lt) then y else x)
    (fun x y => if comparator x y == (if is_asc then Ordering.gt else Ordering.lt) then x else y)
    (fun x y => by
      by_cases hxy : comparator x y == (if is_asc then Ordering.gt else Ordering.lt)
      · right; simp [hxy]
      · left; simp [hxy])
    (xs.take (xs.length / 2)) (xs.drop (xs.length / 2))
    (by simp only [List.length_take, List.length_drop]; omega)
  simpa [List.take_append_drop, List.append_assoc] using h

theorem sub_sort_perm (xs : List α) (is_asc : Bool) (comparator : α → α → Ordering) :
    (sub_sort xs is_asc comparator).Perm xs := by
  suffices key : ∀ (n : Nat) (xs : List α), xs.length = n →
      (sub_sort xs is_asc comparator).Perm xs from key xs.length xs rfl
  intro n
  induction n using Nat.strong_induction_on with
  | _ n ih =>
  intro xs hn
  subst hn
  by_cases h : 1 < xs.length
  · rw [sub_sort_of_lt xs is_asc comparator h]
    set ys := compare_and_swap xs is_asc comparator with hys
    have hlen : ys.length = xs.length := length_compare_and_swap ..
    have h1 : ((ys.take (ys.length / 2))).length < xs.length := by
      simp only [List.length_take]; omega
    have h2 : ((ys.drop (ys.length / 2))).length < xs.length := by
      simp only [List.length_drop]; omega
    have p1 := ih _ h1 _ rfl
    have p2 := ih _ h2 _ rfl
    exact ((p1.append p2).trans (by rw [List.take_append_drop])).trans
      (compare_and_swap_perm xs is_asc comparator)
  · rw [sub_sort_of_not_lt xs is_asc comparator h]

theorem do_sort_perm (xs : List α) (is_asc : Bool) (comparator : α → α → Ordering) :
    (do_sort xs is_asc comparator).Perm xs := by
  suffices key : ∀ (n : Nat) (xs : List α), xs.length = n → ∀ (d : Bool),
      (do_sort xs d comparator).Perm xs from key xs.length xs rfl is_asc
  intro n
  induction n using Nat.strong_induction_on with
  | _ n ih =>
  intro xs hn d
  subst hn
  by_cases h : 1 < xs.length
  · rw [do_sort_of_lt xs d comparator h]
    have h1 : (xs.take (xs.length / 2)).length < xs.length := by
      simp only [List.length_take]; omega
    have h2 : (xs.drop (xs.length / 2)).length < xs.length := by
      simp only [List.length_drop]; omega
    have p1 := ih _ h1 _ rfl true
    have p2 := ih _ h2 _ rfl false
    exact (sub_sort_perm ..).trans (((p1.append p2).trans (by rw [List.take_append_drop])))
  · rw [do_sort]
    rw [dif_neg h]

theorem sub_sort_length (xs : List α) (is_asc : Bool) (comparator : α → α → Ordering) :
    (sub_sort xs is_asc comparator).length = xs.length :=
  (sub_sort_perm ..).length_eq

theorem do_sort_length (xs : List α) (is_asc : Bool) (comparator : α → α → Ordering) :
    (do_sort xs is_asc comparator).length = xs.length :=
  (do_sort_perm ..).length_eq

theorem sub_sort_mem (xs : List α) (is_asc : Bool) (comparator : α → α → Ordering)
    (a : α) : a ∈ sub_sort xs is_asc comparator ↔ a ∈ xs :=
  (sub_sort_perm ..).mem_iff

theorem ordering_beq_iff (o p : Ordering) : (o == p) = true ↔ o = p := by
  cases o <;> cases p <;> decide

theorem swap_fn_keep_min [LinearOrder α] (x y : α) :
    (if compare x y == Ordering.gt then y else x) = x ⊓ y := by
  rcases le_or_lt x y with h | h
  · have hc : ¬ (compare x y == Ordering.gt) = true := by
      simp only [ordering_beq_iff, compare_gt_iff_gt, gt_iff_lt]
      exact not_lt.mpr h
    rw [if_neg hc, inf_eq_left.mpr h]
  · have hc : (compare x y == Ordering.gt) = true := by
      simp only [ordering_beq_iff, compare_gt_iff_gt, gt_iff_lt]
      exact h
    rw [if_pos hc, inf_eq_right.mpr h.le]

theorem swap_fn_keep_max [LinearOrder α] (x y : α) :
    (if compare x y == Ordering.gt then x else y) = x ⊔ y := by
  rcases le_or_lt x y with h | h
  · have hc : ¬ (compare x y == Ordering.gt) = true := by
      simp only [ordering_beq_iff, compare_gt_iff_gt, gt_iff_lt]
      exact not_lt.mpr h
    rw [if_neg hc, sup_eq_right.mpr h]
  · have hc : (compare x y == Ordering.gt) = true := by
      simp only [ordering_beq_iff, compare_gt_iff_gt, gt_iff_lt]
      exact h
    rw [if_pos hc, sup_eq_left.mpr h.le]

theorem swap_fn_lt_keep_max [LinearOrder α] (x y : α) :
    (if compare x y == Ordering.lt then y else x) = x ⊔ y := by
  rcases lt_or_le x y with h | h
  · have hc : (compare x y == Ordering.lt) = true := by
      simp only [ordering_beq_iff, compare_lt_iff_lt]
      exact h
    rw [if_pos hc, sup_eq_right.mpr h.le]
  · have hc : ¬ (compare x y == Ordering.lt) = true := by
      simp only [ordering_beq_iff, compare_lt_iff_lt]
      exact not_lt.mpr h
    rw [if_neg hc, sup_eq_left.mpr h]

theorem swap_fn_lt_keep_min [LinearOrder α] (x y : α) :
    (if compare x y == Ordering.lt then x else y) = x ⊓ y := by
  rcases lt_or_le x y with h | h
  · have hc : (compare x y == Ordering.lt) = true := by
      simp only [ordering_beq_iff, compare_lt_iff_lt]
      exact h
    rw [if_pos hc, inf_eq_left.mpr h.le]
  · have hc : ¬ (compare x y == Ordering.lt) = true := by
      simp only [ordering_beq_iff, compare_lt_iff_lt]
      exact not_lt.mpr h
    rw [if_neg hc, inf_eq_right.mpr h]

theorem compare_and_swap_asc_eq [LinearOrder α] (xs : List α) :
    compare_and_swap xs true (fun a b => compare a b) =
      List.zipWith (· ⊓ ·) (xs.take (xs.length / 2)) (xs.drop (xs.length / 2))
        ++ List.zipWith (· ⊔ ·) (xs.take (xs.length / 2)) (xs.drop (xs.length / 2))
        ++ (xs.drop (xs.length / 2)).drop (xs.take (xs.length / 2)).length := by
  simp only [compare_and_swap, if_true]
  simp only [swap_fn_keep_min, swap_fn_keep_max]

theorem compare_and_swap_desc_eq [LinearOrder α] (xs : List α) :
    compare_and_swap xs false (fun a b => compare a b) =
      List.zipWith (· ⊔ ·) (xs.take (xs.length / 2)) (xs.drop (xs.length / 2))
        ++ List.zipWith (· ⊓ ·) (xs.take (xs.length / 2)) (xs.drop (xs.length / 2))
        ++ (xs.drop (xs.length / 2)).drop (xs.take (xs.length / 2)).length := by
  simp only [compare_and_swap, Bool.false_eq_true, if_false]
  simp only [swap_fn_lt_keep_max, swap_fn_lt_keep_min]

set_option maxRecDepth 4096

/-- Internal to the 0-1-principle argument: a Boolean sequence is
cyclically bitonic iff it is a block of `v`, a block of `!v`, and a
block of `v` again (each block possibly empty). -/
def CyclicBitonic (xs : List Bool) : Prop :=
  ∃ (v : Bool) (a b c : Nat),
    xs = List.replicate a v ++ List.replicate b (!v) ++ List.replicate c v

theorem cyclicBitonic_replicate (n : Nat) (v : Bool) :
    CyclicBitonic (List.replicate n v) :=
  ⟨v, n, 0, 0, by simp⟩

theorem cyclicBitonic_three (w u : Bool) (x y z : Nat) :
    CyclicBitonic
      (List.replicate x w ++ List.replicate y u ++ List.replicate z w) := by
  by_cases h : u = w
  · subst h
    refine ⟨u, x + y + z, 0, 0, ?_⟩
    repeat rw [List.replicate_add]
    simp [List.append_assoc]
  · have hu : u = !w := by cases w <;> cases u <;> simp_all
    subst hu
    exact ⟨w, x, y, z, rfl⟩

theorem zipWith_replicate_same (f : α → β → γ) (x : α) (y : β) (n : Nat) :
    List.zipWith f (List.replicate n x) (List.replicate n y)
      = List.replicate n (f x y) := by
  induction n with
  | zero => simp
  | succ n ih => simp [List.replicate_succ, ih]

theorem zip_blocks (f : Bool → Bool → Bool) (p q r : Nat)
    (x1 x2 x3 y1 y2 y3 : Bool) :
    List.zipWith f
        (List.replicate p x1 ++ List.replicate q x2 ++ List.replicate r x3)
        (List.replicate p y1 ++ List.replicate q y2 ++ List.replicate r y3)
      = List.replicate p (f x1 y1) ++ List.replicate q (f x2 y2)
          ++ List.replicate r (f x3 y3) := by
  rw [List.zipWith_append _ _ _ _ _ (by simp), List.zipWith_append _ _ _ _ _ (by simp),
    zipWith_replicate_same, zipWith_replicate_same, zipWith_replicate_same]

theorem mem_three_replicate {y : Bool} {x1 x2 x3 : Nat} {w1 w2 w3 : Bool}
    (hy : y ∈ List.replicate x1 w1 ++ List.replicate x2 w2 ++ List.replicate x3 w3) :
    y = w1 ∨ y = w2 ∨ y = w3 := by
  rcases List.mem_append.mp hy with h | h
  · rcases List.mem_append.mp h with h | h
    · exact Or.inl (List.eq_of_mem_replicate h)
    · exact Or.inr (Or.inl (List.eq_of_mem_replicate h))
  · exact Or.inr (Or.inr (List.eq_of_mem_replicate h))

theorem all_eq_three (w : Bool) (p q r : Nat) :
    ∀ x ∈ (List.replicate p w ++ List.replicate q w ++ List.replicate r w : List Bool),
      x = w := by
  intro x hx
  rcases mem_three_replicate hx with h | h | h <;> exact h

theorem bool_inf_not_self (v : Bool) : (v ⊓ !v) = false := by cases v <;> decide

theorem bool_not_inf_self (v : Bool) : ((!v) ⊓ v) = false := by cases v <;> decide

theorem bool_sup_not_self (v : Bool) : (v ⊔ !v) = true := by cases v <;> decide

theorem bool_not_sup_self (v : Bool) : ((!v) ⊔ v) = true := by cases v <;> decide

theorem bool_inf_self (v : Bool) : (v ⊓ v) = v := by cases v <;> decide

theorem bool_sup_self (v : Bool) : (v ⊔ v) = v := by cases v <;> decide

/-- The half-cleaner lemma: pairing a cyclically bitonic Boolean
sequence across its midpoint, the pairwise minima and pairwise maxima
are each cyclically bitonic, and one of the two is clean (all-false
minima or all-true maxima). -/
theorem half_clean (fh sh : List Bool) (m : Nat) (hfh : fh.length = m)
    (hsh : sh.length = m) (hb : CyclicBitonic (fh ++ sh)) :
    CyclicBitonic (List.zipWith (· ⊓ ·) fh sh) ∧
    CyclicBitonic (List.zipWith (· ⊔ ·) fh sh) ∧
    ((∀ x ∈ List.zipWith (· ⊓ ·) fh sh, x = false) ∨
     (∀ y ∈ List.zipWith (· ⊔ ·) fh sh, y = true)) := by
  obtain ⟨v, a, b, c, heq⟩ := hb
  have hlen : a + b + c = m + m := by
    have hl := congrArg List.length heq
    simp only [List.length_append, List.length_replicate, hfh, hsh] at hl
    omega
  by_cases h1 : m ≤ a
  · -- the leading v-block covers all of fh
    obtain ⟨p, hm, rfl⟩ : ∃ p, m = p + b + c ∧ a = (p + b + c) + p :=
      ⟨a - m, by omega, by omega⟩
    have hsplit :
        List.replicate ((p + b + c) + p) v ++ List.replicate b (!v)
            ++ List.replicate c v
          = (List.replicate p v ++ List.replicate b v ++ List.replicate c v)
            ++ (List.replicate p v ++ List.replicate b (!v) ++ List.replicate c v) := by
      repeat rw [List.replicate_add]
      simp only [List.append_assoc]
    obtain ⟨hf, hs⟩ := List.append_inj (heq.trans hsplit)
      (by simp only [hfh, List.length_append, List.length_replicate]; omega)
    subst hf hs
    have hL := zip_blocks (· ⊓ ·) p b c v v v v (!v) v
    have hU := zip_blocks (· ⊔ ·) p b c v v v v (!v) v
    simp only [bool_inf_self, bool_inf_not_self, bool_sup_self, bool_sup_not_self] at hL hU
    refine ⟨hL ▸ cyclicBitonic_three v false p b c,
      hU ▸ cyclicBitonic_three v true p b c, ?_⟩
    cases v
    · left
      rw [hL]
      exact all_eq_three false p b c
    · right
      rw [hU]
      exact all_eq_three true p b c
  · by_cases h2 : a + b ≤ m
    · -- the !v-block lies inside fh
      obtain ⟨r, hm, rfl⟩ : ∃ r, m = a + b + r ∧ c = r + (a + b + r) :=
        ⟨m - a - b, by omega, by omega⟩
      have hsplit :
          List.replicate a v ++ List.replicate b (!v)
              ++ List.replicate (r + (a + b + r)) v
            = (List.replicate a v ++ List.replicate b (!v) ++ List.replicate r v)
              ++ (List.replicate a v ++ List.replicate b v ++ List.replicate r v) := by
        repeat rw [List.replicate_add]
        simp only [List.append_assoc]
      obtain ⟨hf, hs⟩ := List.append_inj (heq.trans hsplit)
        (by simp only [hfh, List.length_append, List.length_replicate]; omega)
      subst hf hs
      have hL := zip_blocks (· ⊓ ·) a b r v (!v) v v v v
      have hU := zip_blocks (· ⊔ ·) a b r v (!v) v v v v
      simp only [bool_inf_self, bool_not_inf_self, bool_sup_self, bool_not_sup_self] at hL hU
      refine ⟨hL ▸ cyclicBitonic_three v false a b r,
        hU ▸ cyclicBitonic_three v true a b r, ?_⟩
      cases v
      · left
        rw [hL]
        exact all_eq_three false a b r
      · right
        rw [hU]
        exact all_eq_three true a b r
    · -- the !v-block straddles the midpoint
      by_cases h3 : m ≤ b
      · -- the !v-block also covers the whole middle
        obtain ⟨q, hm, rfl⟩ :
            ∃ q, m = a + q + c ∧ b = (q + c) + (a + q) :=
          ⟨b - m, by omega, by omega⟩
        have hsplit :
            List.replicate a v ++ List.replicate ((q + c) + (a + q)) (!v)
                ++ List.replicate c v
              = (List.replicate a v ++ List.replicate q (!v) ++ List.replicate c (!v))
                ++ (List.replicate a (!v) ++ List.replicate q (!v) ++ List.replicate c v) := by
          repeat rw [List.replicate_add]
          simp only [List.append_assoc]
        obtain ⟨hf, hs⟩ := List.append_inj (heq.trans hsplit)
          (by simp only [hfh, List.length_append, List.length_replicate]; omega)
        subst hf hs
        have hL := zip_blocks (· ⊓ ·) a q c v (!v) (!v) (!v) (!v) v
        have hU := zip_blocks (· ⊔ ·) a q c v (!v) (!v) (!v) (!v) v
        simp only [bool_inf_not_self, bool_inf_self, bool_not_inf_self,
          bool_sup_not_self, bool_sup_self, bool_not_sup_self] at hL hU
        refine ⟨hL ▸ cyclicBitonic_three false (!v) a q c,
          hU ▸ cyclicBitonic_three true (!v) a q c, ?_⟩
        cases v
        · right
          rw [hU]
          simp only [Bool.not_false]
          exact all_eq_three true a q c
        · left
          rw [hL]
          simp only [Bool.not_true]
          exact all_eq_three false a q c
      · -- generic straddle
        obtain ⟨p, q, r, hm, rfl, rfl, rfl⟩ :
            ∃ p q r, m = p + q + r ∧ a = p + q ∧ b = r + p ∧ c = q + r :=
          ⟨a + b - m, m - b, m - a, by omega, by omega, by omega, by omega⟩
        have hsplit :
            List.replicate (p + q) v ++ List.replicate (r + p) (!v)
                ++ List.replicate (q + r) v
              = (List.replicate p v ++ List.replicate q v ++ List.replicate r (!v))
                ++ (List.replicate p (!v) ++ List.replicate q v ++ List.replicate r v) := by
          repeat rw [List.replicate_add]
          simp only [List.append_assoc]
        obtain ⟨hf, hs⟩ := List.append_inj (heq.trans hsplit)
          (by simp only [hfh, List.length_append, List.length_replicate]; omega)
        subst hf hs
        have hL := zip_blocks (· ⊓ ·) p q r v v (!v) (!v) v v
        have hU := zip_blocks (· ⊔ ·) p q r v v (!v) (!v) v v
        simp only [bool_inf_not_self, bool_inf_self, bool_not_inf_self,
          bool_sup_not_self, bool_sup_self, bool_not_sup_self] at hL hU
        refine ⟨hL ▸ cyclicBitonic_three false v p q r,
          hU ▸ cyclicBitonic_three true v p q r, ?_⟩
        cases v
        · left
          rw [hL]
          exact all_eq_three false p q r
        · right
          rw [hU]
          exact all_eq_three true p q r

/-- The merge phase sorts every cyclically bitonic Boolean sequence of
power-of-two length ascending. -/
theorem sub_sort_bool_asc : ∀ (k : Nat) (xs : List Bool), xs.length = 2 ^ k →
    CyclicBitonic xs →
    List.Sorted (· ≤ ·) (sub_sort xs true (fun a b => compare a b)) := by
  intro k
  induction k with
  | zero =>
    intro xs hlen _
    obtain ⟨x, rfl⟩ := List.length_eq_one.mp (by simpa using hlen)
    rw [sub_sort_of_not_lt _ _ _ (by simp)]
    exact List.sorted_singleton x
  | succ k ih =>
    intro xs hlen hb
    have hn : 1 < xs.length := by
      rw [hlen]
      exact Nat.one_lt_two_pow_iff.mpr (Nat.succ_ne_zero k)
    have hmid : xs.length / 2 = 2 ^ k := by
      rw [hlen, pow_succ]
      omega
    have hfh : (xs.take (xs.length / 2)).length = 2 ^ k := by
      simp only [List.length_take, hmid, hlen]
      rw [pow_succ]
      omega
    have hsh : (xs.drop (xs.length / 2)).length = 2 ^ k := by
      simp only [List.length_drop, hmid, hlen]
      rw [pow_succ]
      omega
    have hcas : compare_and_swap xs true (fun a b => compare a b) =
        List.zipWith (· ⊓ ·) (xs.take (xs.length / 2)) (xs.drop (xs.length / 2))
          ++ List.zipWith (· ⊔ ·) (xs.take (xs.length / 2)) (xs.drop (xs.length / 2)) := by
      rw [compare_and_swap_asc_eq xs,
        show (xs.drop (xs.length / 2)).drop ((xs.take (xs.length / 2)).length) = []
          from List.drop_eq_nil_of_le (by rw [hsh, hfh]),
        List.append_nil]
    obtain ⟨hLc, hUc, hcross⟩ := half_clean (xs.take (xs.length / 2))
      (xs.drop (xs.length / 2)) (2 ^ k) hfh hsh
      (by rw [List.take_append_drop]; exact hb)
    have hLlen : (List.zipWith (· ⊓ ·) (xs.take (xs.length / 2))
        (xs.drop (xs.length / 2))).length = 2 ^ k := by
      simp only [List.length_zipWith, hfh, hsh]
      exact min_self _
    have hUlen : (List.zipWith (· ⊔ ·) (xs.take (xs.length / 2))
        (xs.drop (xs.length / 2))).length = 2 ^ k := by
      simp only [List.length_zipWith, hfh, hsh]
      exact min_self _
    have hyslen : (compare_and_swap xs true (fun a b => compare a b)).length / 2
        = 2 ^ k := by
      rw [length_compare_and_swap, hmid]
    rw [sub_sort_of_lt _ _ _ hn, hyslen, hcas, List.take_left' hLlen,
      List.drop_left' hLlen]
    refine List.pairwise_append.mpr ⟨ih _ hLlen hLc, ih _ hUlen hUc, ?_⟩
    intro x hx y hy
    have hxL := (sub_sort_perm _ true (fun a b : Bool => compare a b)).mem_iff.mp hx
    have hyU := (sub_sort_perm _ true (fun a b : Bool => compare a b)).mem_iff.mp hy
    rcases hcross with hall | hall
    · rw [hall x hxL]
      exact Bool.false_le y
    · rw [hall y hyU]
      exact Bool.le_true x

theorem bool_not_inf_not (a b : Bool) : ((!a) ⊓ (!b)) = !(a ⊔ b) := by
  cases a <;> cases b <;> decide

theorem bool_not_sup_not (a b : Bool) : ((!a) ⊔ (!b)) = !(a ⊓ b) := by
  cases a <;> cases b <;> decide

theorem compare_and_swap_not (xs : List Bool) :
    compare_and_swap (xs.map not) true (fun a b => compare a b)
      = (compare_and_swap xs false (fun a b => compare a b)).map not := by
  rw [compare_and_swap_asc_eq, compare_and_swap_desc_eq]
  simp only [List.length_map, ← List.map_take, ← List.map_drop, List.zipWith_map,
    List.map_append, List.map_zipWith]
  simp only [bool_not_inf_not, bool_not_sup_not]

theorem sub_sort_not (xs : List Bool) :
    sub_sort (xs.map not) true (fun a b => compare a b)
      = (sub_sort xs false (fun a b => compare a b)).map not := by
  suffices key : ∀ (n : Nat) (xs : List Bool), xs.length = n →
      sub_sort (xs.map not) true (fun a b => compare a b)
        = (sub_sort xs false (fun a b => compare a b)).map not from
    key xs.length xs rfl
  intro n
  induction n using Nat.strong_induction_on with
  | _ n ih =>
  intro xs hn
  subst hn
  by_cases h : 1 < xs.length
  · rw [sub_sort_of_lt _ _ _ (by simpa using h), sub_sort_of_lt _ _ _ h,
      compare_and_swap_not]
    set zs := compare_and_swap xs false (fun a b : Bool => compare a b) with hzs
    have hzlen : zs.length = xs.length := length_compare_and_swap ..
    have h1 : ((zs.map not).take ((zs.map not).length / 2)) =
        (zs.take (zs.length / 2)).map not := by
      rw [List.length_map, List.map_take]
    have h2 : ((zs.map not).drop ((zs.map not).length / 2)) =
        (zs.drop (zs.length / 2)).map not := by
      rw [List.length_map, List.map_drop]
    rw [h1, h2, ih (zs.take (zs.length / 2)).length
        (by simp only [List.length_take]; omega) _ rfl,
      ih (zs.drop (zs.length / 2)).length
        (by simp only [List.length_drop]; omega) _ rfl,
      List.map_append]
  · rw [sub_sort_of_not_lt _ _ _ (by simpa using h), sub_sort_of_not_lt _ _ _ h]

theorem cyclicBitonic_map_not {xs : List Bool} (hb : CyclicBitonic xs) :
    CyclicBitonic (xs.map not) := by
  obtain ⟨v, a, b, c, rfl⟩ := hb
  refine ⟨!v, a, b, c, ?_⟩
  simp [List.map_append, List.map_replicate]

theorem bool_le_of_not_le {a b : Bool} (h : (!a) ≤ (!b)) : b ≤ a := by
  cases a <;> cases b <;> simp_all

/-- The merge phase sorts every cyclically bitonic Boolean sequence of
power-of-two length descending when `is_asc` is `false`. -/
theorem sub_sort_bool_desc (k : Nat) (xs : List Bool) (hlen : xs.length = 2 ^ k)
    (hb : CyclicBitonic xs) :
    List.Sorted (· ≥ ·) (sub_sort xs false (fun a b => compare a b)) := by
  have hasc := sub_sort_bool_asc k (xs.map not)
    (by rw [List.length_map, hlen]) (cyclicBitonic_map_not hb)
  rw [sub_sort_not] at hasc
  have := List.pairwise_map.mp hasc
  exact this.imp (fun h => bool_le_of_not_le h)

theorem bool_sorted_asc_decomp : ∀ {l : List Bool}, List.Sorted (· ≤ ·) l →
    ∃ p q, l = List.replicate p false ++ List.replicate q true := by
  intro l
  induction l with
  | nil => exact fun _ => ⟨0, 0, rfl⟩
  | cons x l ih =>
    intro hs
    obtain ⟨hx, hl⟩ := List.sorted_cons.mp hs
    obtain ⟨p, q, rfl⟩ := ih hl
    cases x
    · exact ⟨p + 1, q, by simp [List.replicate_succ]⟩
    · have hp : p = 0 := by
        by_contra hp
        have hfmem : false ∈ List.replicate p false ++ List.replicate q true :=
          List.mem_append_left _ (List.mem_replicate.mpr ⟨hp, rfl⟩)
        exact absurd (hx false hfmem) (by decide)
      subst hp
      exact ⟨0, q + 1, by simp [List.replicate_succ]⟩

theorem bool_sorted_desc_decomp : ∀ {l : List Bool}, List.Sorted (· ≥ ·) l →
    ∃ p q, l = List.replicate p true ++ List.replicate q false := by
  intro l
  induction l with
  | nil => exact fun _ => ⟨0, 0, rfl⟩
  | cons x l ih =>
    intro hs
    obtain ⟨hx, hl⟩ := List.sorted_cons.mp hs
    obtain ⟨p, q, rfl⟩ := ih hl
    cases x
    · have hp : p = 0 := by
        by_contra hp
        have htmem : true ∈ List.replicate p true ++ List.replicate q false :=
          List.mem_append_left _ (List.mem_replicate.mpr ⟨hp, rfl⟩)
        exact absurd (hx true htmem) (by decide)
      subst hp
      exact ⟨0, q + 1, by simp [List.replicate_succ]⟩
    · exact ⟨p + 1, q, by simp [List.replicate_succ]⟩

/-- The full recursive sort is correct on Boolean sequences of
power-of-two length, in both directions. -/
theorem do_sort_bool_sorted : ∀ (k : Nat) (xs : List Bool), xs.length = 2 ^ k →
    List.Sorted (· ≤ ·) (do_sort xs true (fun a b => compare a b)) ∧
    List.Sorted (· ≥ ·) (do_sort xs false (fun a b => compare a b)) := by
  intro k
  induction k with
  | zero =>
    intro xs hlen
    obtain ⟨x, rfl⟩ := List.length_eq_one.mp (by simpa using hlen)
    rw [do_sort, do_sort]
    constructor <;> simp
  | succ k ih =>
    intro xs hlen
    have hn : 1 < xs.length := by
      rw [hlen]
      exact Nat.one_lt_two_pow_iff.mpr (Nat.succ_ne_zero k)
    have hfh : (xs.take (xs.length / 2)).length = 2 ^ k := by
      simp only [List.length_take, hlen]
      rw [pow_succ]
      omega
    have hsh : (xs.drop (xs.length / 2)).length = 2 ^ k := by
      simp only [List.length_drop, hlen]
      rw [pow_succ]
      omega
    obtain ⟨hA, _⟩ := ih _ hfh
    obtain ⟨_, hB⟩ := ih _ hsh
    obtain ⟨p, q, hAeq⟩ := bool_sorted_asc_decomp hA
    obtain ⟨r, s, hBeq⟩ := bool_sorted_desc_decomp hB
    have hbit : CyclicBitonic
        (do_sort (xs.take (xs.length / 2)) true (fun a b => compare a b)
          ++ do_sort (xs.drop (xs.length / 2)) false (fun a b => compare a b)) := by
      rw [hAeq, hBeq]
      refine ⟨false, p, q + r, s, ?_⟩
      simp only [Bool.not_false, List.replicate_add, List.append_assoc]
    have hablen :
        (do_sort (xs.take (xs.length / 2)) true (fun a b => compare a b)
          ++ do_sort (xs.drop (xs.length / 2)) false (fun a b => compare a b)).length
          = 2 ^ (k + 1) := by
      simp only [List.length_append, do_sort_length, hfh, hsh]
      rw [pow_succ]
      omega
    constructor
    · rw [do_sort_of_lt _ _ _ hn]
      exact sub_sort_bool_asc (k + 1) _ hablen hbit
    · rw [do_sort_of_lt _ _ _ hn]
      exact sub_sort_bool_desc (k + 1) _ hablen hbit

theorem map_compare_and_swap [LinearOrder α] [LinearOrder β] {f : α → β}
    (hf : Monotone f) (xs : List α) (d : Bool) :
    (compare_and_swap xs d (fun a b => compare a b)).map f
      = compare_and_swap (xs.map f) d (fun a b => compare a b) := by
  cases d
  · rw [compare_and_swap_desc_eq, compare_and_swap_desc_eq]
    simp only [List.length_map, ← List.map_take, ← List.map_drop, List.zipWith_map,
      List.map_append, List.map_zipWith]
    simp only [hf.map_min, hf.map_max]
  · rw [compare_and_swap_asc_eq, compare_and_swap_asc_eq]
    simp only [List.length_map, ← List.map_take, ← List.map_drop, List.zipWith_map,
      List.map_append, List.map_zipWith]
    simp only [hf.map_min, hf.map_max]

theorem map_sub_sort [LinearOrder α] [LinearOrder β] {f : α → β} (hf : Monotone f)
    (xs : List α) (d : Bool) :
    (sub_sort xs d (fun a b => compare a b)).map f
      = sub_sort (xs.map f) d (fun a b => compare a b) := by
  suffices key : ∀ (n : Nat) (xs : List α), xs.length = n →
      (sub_sort xs d (fun a b => compare a b)).map f
        = sub_sort (xs.map f) d (fun a b => compare a b) from key xs.length xs rfl
  intro n
  induction n using Nat.strong_induction_on with
  | _ n ih =>
  intro xs hn
  subst hn
  by_cases h : 1 < xs.length
  · rw [sub_sort_of_lt xs d (fun a b => compare a b) h,
      sub_sort_of_lt (xs.map f) d (fun a b => compare a b) (by simpa using h),
      ← map_compare_and_swap hf]
    set zs := compare_and_swap xs d (fun a b => compare a b) with hzs
    have hzlen : zs.length = xs.length := length_compare_and_swap ..
    rw [List.length_map, ← List.map_take, ← List.map_drop,
      ← ih (zs.take (zs.length / 2)).length (by simp only [List.length_take]; omega) _ rfl,
      ← ih (zs.drop (zs.length / 2)).length (by simp only [List.length_drop]; omega) _ rfl,
      ← List.map_append]
  · rw [sub_sort_of_not_lt xs d (fun a b => compare a b) h,
      sub_sort_of_not_lt (xs.map f) d (fun a b => compare a b) (by simpa using h)]

theorem do_sort_of_not_lt (xs : List α) (is_asc : Bool)
    (comparator : α → α → Ordering) (h : ¬ 1 < xs.length) :
    do_sort xs is_asc comparator = xs := by
  rw [do_sort, dif_neg h]

theorem map_do_sort [LinearOrder α] [LinearOrder β] {f : α → β} (hf : Monotone f)
    (xs : List α) (d : Bool) :
    (do_sort xs d (fun a b => compare a b)).map f
      = do_sort (xs.map f) d (fun a b => compare a b) := by
  suffices key : ∀ (n : Nat) (xs : List α), xs.length = n → ∀ (d : Bool),
      (do_sort xs d (fun a b => compare a b)).map f
        = do_sort (xs.map f) d (fun a b => compare a b) from key xs.length xs rfl d
  intro n
  induction n using Nat.strong_induction_on with
  | _ n ih =>
  intro xs hn d
  subst hn
  by_cases h : 1 < xs.length
  · rw [do_sort_of_lt xs d (fun a b => compare a b) h,
      do_sort_of_lt (xs.map f) d (fun a b => compare a b) (by simpa using h),
      List.length_map, ← List.map_take, ← List.map_drop,
      ← ih (xs.take (xs.length / 2)).length (by simp only [List.length_take]; omega) _ rfl true,
      ← ih (xs.drop (xs.length / 2)).length (by simp only [List.length_drop]; omega) _ rfl false,
      ← List.map_append, ← map_sub_sort hf]
  · rw [do_sort_of_not_lt xs d (fun a b => compare a b) h,
      do_sort_of_not_lt (xs.map f) d (fun a b => compare a b) (by simpa using h)]

theorem not_chain'_decomp {r : α → α → Prop} : ∀ {l : List α}, ¬ List.Chain' r l →
    ∃ (l1 : List α) (a b : α) (l2 : List α), l = l1 ++ a :: b :: l2 ∧ ¬ r a b := by
  intro l
  induction l with
  | nil => exact fun hn => absurd List.chain'_nil hn
  | cons x l ih =>
    intro hn
    match l, ih with
    | [], _ => exact absurd (List.chain'_singleton x) hn
    | y :: l, ih =>
      by_cases hxy : r x y
      · have hl : ¬ List.Chain' r (y :: l) := fun hc => hn (List.Chain'.cons hxy hc)
        obtain ⟨l1, a, b, l2, heq, hab⟩ := ih hl
        exact ⟨x :: l1, a, b, l2, by rw [List.cons_append, ← heq], hab⟩
      · exact ⟨[], x, y, l, rfl, hxy⟩

theorem pairwise_infix {r : α → α → Prop} {l1 l2 : List α} {a b : α}
    (h : List.Pairwise r (l1 ++ a :: b :: l2)) : r a b := by
  have h2 := (List.pairwise_append.mp h).2.1
  exact (List.pairwise_cons.mp h2).1 b (List.mem_cons_self b l2)

/-- 0-1-principle transfer: the recursive sort leaves every power-of-two
length sequence over a linear order non-decreasing when called ascending. -/
theorem do_sort_sorted_asc [LinearOrder α] (k : Nat) (xs : List α)
    (hlen : xs.length = 2 ^ k) :
    List.Sorted (· ≤ ·) (do_sort xs true (fun a b => compare a b)) := by
  by_contra hns
  have hnc : ¬ List.Chain' (· ≤ ·) (do_sort xs true (fun a b => compare a b)) :=
    fun hc => hns (List.chain'_iff_pairwise.mp hc)
  obtain ⟨l1, a, b, l2, heq, hab⟩ := not_chain'_decomp hnc
  have hfmono : Monotone (fun z : α => decide (a ≤ z)) := by
    intro u v huv
    simp only [Bool.le_iff_imp, decide_eq_true_eq]
    exact fun hu => le_trans hu huv
  have hsorted := (do_sort_bool_sorted k (xs.map (fun z : α => decide (a ≤ z)))
    (by rw [List.length_map, hlen])).1
  rw [← map_do_sort hfmono xs true, heq, List.map_append, List.map_cons,
    List.map_cons] at hsorted
  have hrel := pairwise_infix hsorted
  simp only [Bool.le_iff_imp, decide_eq_true_eq] at hrel
  exact absurd (hrel le_rfl) hab

/-- 0-1-principle transfer, descending direction. -/
theorem do_sort_sorted_desc [LinearOrder α] (k : Nat) (xs : List α)
    (hlen : xs.length = 2 ^ k) :
    List.Sorted (· ≥ ·) (do_sort xs false (fun a b => compare a b)) := by
  by_contra hns
  haveI : IsTrans α (· ≥ ·) := ⟨fun x y z h1 h2 => le_trans h2 h1⟩
  have hnc : ¬ List.Chain' (· ≥ ·) (do_sort xs false (fun a b => compare a b)) :=
    fun hc => hns (List.chain'_iff_pairwise.mp hc)
  obtain ⟨l1, a, b, l2, heq, hab⟩ := not_chain'_decomp hnc
  have hfmono : Monotone (fun z : α => decide (b ≤ z)) := by
    intro u v huv
    simp only [Bool.le_iff_imp, decide_eq_true_eq]
    exact fun hu => le_trans hu huv
  have hsorted := (do_sort_bool_sorted k (xs.map (fun z : α => decide (b ≤ z)))
    (by rw [List.length_map, hlen])).2
  rw [← map_do_sort hfmono xs false, heq, List.map_append, List.map_cons,
    List.map_cons] at hsorted
  have hrel := pairwise_infix hsorted
  simp only [ge_iff_le, Bool.le_iff_imp, decide_eq_true_eq] at hrel
  exact absurd (hrel le_rfl) hab

theorem flip_cond_gt [LinearOrder α] (x y : α) :
    (compare y x == Ordering.gt) = (compare x y == Ordering.lt) := by
  rcases lt_trichotomy x y with h | h | h
  · rw [compare_gt_iff_gt.mpr h, compare_lt_iff_lt.mpr h]
    rfl
  · subst h
    rw [compare_eq_iff_eq.mpr rfl]
    rfl
  · rw [show compare y x = Ordering.lt from compare_lt_iff_lt.mpr h,
      show compare x y = Ordering.gt from compare_gt_iff_gt.mpr h]
    rfl

theorem flip_cond_lt [LinearOrder α] (x y : α) :
    (compare y x == Ordering.lt) = (compare x y == Ordering.gt) :=
  (flip_cond_gt y x).symm

/-- The operand-swapped comparator turns each compare-and-swap pass into
the pass of the opposite direction. -/
theorem compare_and_swap_flip [LinearOrder α] (xs : List α) (d : Bool) :
    compare_and_swap xs d (fun a b => compare b a)
      = compare_and_swap xs (!d) (fun a b => compare a b) := by
  cases d
  · simp only [compare_and_swap, Bool.not_false, if_true, Bool.false_eq_true, if_false]
    simp only [flip_cond_lt]
  · simp only [compare_and_swap, Bool.not_true, if_true, Bool.false_eq_true, if_false]
    simp only [flip_cond_gt]

/-- The operand-swapped comparator turns the whole merge phase into the
merge of the opposite direction. -/
theorem sub_sort_flip [LinearOrder α] (xs : List α) (d : Bool) :
    sub_sort xs d (fun a b => compare b a)
      = sub_sort xs (!d) (fun a b => compare a b) := by
  suffices key : ∀ (n : Nat) (xs : List α), xs.length = n →
      sub_sort xs d (fun a b => compare b a)
        = sub_sort xs (!d) (fun a b => compare a b) from key xs.length xs rfl
  intro n
  induction n using Nat.strong_induction_on with
  | _ n ih =>
  intro xs hn
  subst hn
  by_cases h : 1 < xs.length
  · rw [sub_sort_of_lt xs d (fun a b => compare b a) h,
      sub_sort_of_lt xs (!d) (fun a b => compare a b) h,
      compare_and_swap_flip]
    set zs := compare_and_swap xs (!d) (fun a b : α => compare a b) with hzs
    have hzlen : zs.length = xs.length := length_compare_and_swap ..
    rw [ih (zs.take (zs.length / 2)).length (by simp only [List.length_take]; omega) _ rfl,
      ih (zs.drop (zs.length / 2)).length (by simp only [List.length_drop]; omega) _ rfl]
  · rw [sub_sort_of_not_lt xs d (fun a b => compare b a) h,
      sub_sort_of_not_lt xs (!d) (fun a b => compare a b) h]

/-- The recursive sort with the operand-swapped comparator sorts Boolean
power-of-two sequences in the direction opposite to its flag. -/
theorem do_sort_bool_flip_sorted : ∀ (k : Nat) (xs : List Bool), xs.length = 2 ^ k →
    List.Sorted (· ≥ ·) (do_sort xs true (fun a b => compare b a)) ∧
    List.Sorted (· ≤ ·) (do_sort xs false (fun a b => compare b a)) := by
  intro k
  induction k with
  | zero =>
    intro xs hlen
    obtain ⟨x, rfl⟩ := List.length_eq_one.mp (by simpa using hlen)
    rw [do_sort_of_not_lt _ _ _ (by simp), do_sort_of_not_lt _ _ _ (by simp)]
    constructor <;> simp
  | succ k ih =>
    intro xs hlen
    have hn : 1 < xs.length := by
      rw [hlen]
      exact Nat.one_lt_two_pow_iff.mpr (Nat.succ_ne_zero k)
    have hfh : (xs.take (xs.length / 2)).length = 2 ^ k := by
      simp only [List.length_take, hlen]
      rw [pow_succ]
      omega
    have hsh : (xs.drop (xs.length / 2)).length = 2 ^ k := by
      simp only [List.length_drop, hlen]
      rw [pow_succ]
      omega
    obtain ⟨hA, _⟩ := ih _ hfh
    obtain ⟨_, hB⟩ := ih _ hsh
    obtain ⟨p, q, hAeq⟩ := bool_sorted_desc_decomp hA
    obtain ⟨r, s, hBeq⟩ := bool_sorted_asc_decomp hB
    have hbit : CyclicBitonic
        (do_sort (xs.take (xs.length / 2)) true (fun a b => compare b a)
          ++ do_sort (xs.drop (xs.length / 2)) false (fun a b => compare b a)) := by
      rw [hAeq, hBeq]
      refine ⟨true, p, q + r, s, ?_⟩
      simp only [Bool.not_true, List.replicate_add, List.append_assoc]
    have hablen :
        (do_sort (xs.take (xs.length / 2)) true (fun a b => compare b a)
          ++ do_sort (xs.drop (xs.length / 2)) false (fun a b => compare b a)).length
          = 2 ^ (k + 1) := by
      simp only [List.length_append, do_sort_length, hfh, hsh]
      rw [pow_succ]
      omega
    constructor
    · rw [do_sort_of_lt _ _ _ hn, sub_sort_flip]
      exact sub_sort_bool_desc (k + 1) _ hablen hbit
    · rw [do_sort_of_lt _ _ _ hn, sub_sort_flip]
      exact sub_sort_bool_asc (k + 1) _ hablen hbit

theorem map_sub_sort_flip [LinearOrder α] [LinearOrder β] {f : α → β}
    (hf : Monotone f) (xs : List α) (d : Bool) :
    (sub_sort xs d (fun a b => compare b a)).map f
      = sub_sort (xs.map f) d (fun a b => compare b a) := by
  rw [sub_sort_flip, sub_sort_flip, map_sub_sort hf]

theorem map_do_sort_flip [LinearOrder α] [LinearOrder β] {f : α → β}
    (hf : Monotone f) (xs : List α) (d : Bool) :
    (do_sort xs d (fun a b => compare b a)).map f
      = do_sort (xs.map f) d (fun a b => compare b a) := by
  suffices key : ∀ (n : Nat) (xs : List α), xs.length = n → ∀ (d : Bool),
      (do_sort xs d (fun a b => compare b a)).map f
        = do_sort (xs.map f) d (fun a b => compare b a) from key xs.length xs rfl d
  intro n
  induction n using Nat.strong_induction_on with
  | _ n ih =>
  intro xs hn d
  subst hn
  by_cases h : 1 < xs.length
  · rw [do_sort_of_lt xs d (fun a b => compare b a) h,
      do_sort_of_lt (xs.map f) d (fun a b => compare b a) (by simpa using h),
      List.length_map, ← List.map_take, ← List.map_drop,
      ← ih (xs.take (xs.length / 2)).length (by simp only [List.length_take]; omega) _ rfl true,
      ← ih (xs.drop (xs.length / 2)).length (by simp only [List.length_drop]; omega) _ rfl false,
      ← List.map_append, ← map_sub_sort_flip hf]
  · rw [do_sort_of_not_lt xs d (fun a b => compare b a) h,
      do_sort_of_not_lt (xs.map f) d (fun a b => compare b a) (by simpa using h)]

/-- 0-1-principle transfer for the operand-swapped comparator: the sort
called ascending with `b.cmp(a)` leaves the sequence non-increasing. -/
theorem do_sort_flip_sorted_desc [LinearOrder α] (k : Nat) (xs : List α)
    (hlen : xs.length = 2 ^ k) :
    List.Sorted (· ≥ ·) (do_sort xs true (fun a b => compare b a)) := by
  by_contra hns
  haveI : IsTrans α (· ≥ ·) := ⟨fun x y z h1 h2 => le_trans h2 h1⟩
  have hnc : ¬ List.Chain' (· ≥ ·) (do_sort xs true (fun a b => compare b a)) :=
    fun hc => hns (List.chain'_iff_pairwise.mp hc)
  obtain ⟨l1, a, b, l2, heq, hab⟩ := not_chain'_decomp hnc
  have hfmono : Monotone (fun z : α => decide (b ≤ z)) := by
    intro u v huv
    simp only [Bool.le_iff_imp, decide_eq_true_eq]
    exact fun hu => le_trans hu huv
  have hsorted := (do_sort_bool_flip_sorted k (xs.map (fun z : α => decide (b ≤ z)))
    (by rw [List.length_map, hlen])).1
  rw [← map_do_sort_flip hfmono xs true, heq, List.map_append, List.map_cons,
    List.map_cons] at hsorted
  have hrel := pairwise_infix hsorted
  simp only [ge_iff_le, Bool.le_iff_imp, decide_eq_true_eq] at hrel
  exact absurd (hrel le_rfl) hab

/-- `usize::is_power_of_two` agrees with the mathematical predicate:
true exactly on the powers of two (`1, 2, 4, ...`; not `0`). -/
theorem is_power_of_two_iff (n : Nat) : is_power_of_two n = true ↔ ∃ k, n = 2 ^ k := by
  rw [is_power_of_two, List.any_eq_true]
  constructor
  · rintro ⟨k, _, hpk⟩
    exact ⟨k, by simpa using hpk⟩
  · rintro ⟨k, rfl⟩
    refine ⟨k, List.mem_range.mpr ?_, by simp⟩
    have := Nat.lt_two_pow k
    omega

theorem is_power_of_two_two_pow (k : Nat) : is_power_of_two (2 ^ k) = true :=
  (is_power_of_two_iff _).mpr ⟨k, rfl⟩

theorem is_power_of_two_eq_false {n : Nat} (h : ¬ ∃ k, n = 2 ^ k) :
    is_power_of_two n = false := by
  cases hb : is_power_of_two n
  · rfl
  · exact absurd ((is_power_of_two_iff n).mp hb) h

theorem sub_sort_sequential_of_lt (xs : List α) (is_asc : Bool)
    (comparator : α → α → Ordering) (h : 1 < xs.length) :
    sub_sort_sequential xs is_asc comparator =
      sub_sort_sequential ((compare_and_swap xs is_asc comparator).take
          ((compare_and_swap xs is_asc comparator).length / 2)) is_asc comparator
        ++ sub_sort_sequential ((compare_and_swap xs is_asc comparator).drop
          ((compare_and_swap xs is_asc comparator).length / 2)) is_asc comparator := by
  rw [sub_sort_sequential]
  exact dif_pos h

theorem sub_sort_sequential_of_not_lt (xs : List α) (is_asc : Bool)
    (comparator : α → α → Ordering) (h : ¬ 1 < xs.length) :
    sub_sort_sequential xs is_asc comparator = xs := by
  rw [sub_sort_sequential]
  exact dif_neg h

theorem do_sort_sequential_of_lt (xs : List α) (is_asc : Bool)
    (comparator : α → α → Ordering) (h : 1 < xs.length) :
    do_sort_sequential xs is_asc comparator =
      sub_sort_sequential
        (do_sort_sequential (xs.take (xs.length / 2)) true comparator
          ++ do_sort_sequential (xs.drop (xs.length / 2)) false comparator)
        is_asc comparator := by
  rw [do_sort_sequential]
  exact dif_pos h

theorem do_sort_sequential_of_not_lt (xs : List α) (is_asc : Bool)
    (comparator : α → α → Ordering) (h : ¬ 1 < xs.length) :
    do_sort_sequential xs is_asc comparator = xs := by
  rw [do_sort_sequential]
  exact dif_neg h

theorem sub_sort_eq_sequential (xs : List α) (is_asc : Bool)
    (comparator : α → α → Ordering) :
    sub_sort xs is_asc comparator = sub_sort_sequential xs is_asc comparator := by
  suffices key : ∀ (n : Nat) (xs : List α), xs.length = n →
      sub_sort xs is_asc comparator = sub_sort_sequential xs is_asc comparator from
    key xs.length xs rfl
  intro n
  induction n using Nat.strong_induction_on with
  | _ n ih =>
  intro xs hn
  subst hn
  by_cases h : 1 < xs.length
  · rw [sub_sort_of_lt xs is_asc comparator h,
      sub_sort_sequential_of_lt xs is_asc comparator h]
    set zs := compare_and_swap xs is_asc comparator with hzs
    have hzlen : zs.length = xs.length := length_compare_and_swap ..
    rw [ih (zs.take (zs.length / 2)).length (by simp only [List.length_take]; omega) _ rfl,
      ih (zs.drop (zs.length / 2)).length (by simp only [List.length_drop]; omega) _ rfl]
  · rw [sub_sort_of_not_lt xs is_asc comparator h,
      sub_sort_sequential_of_not_lt xs is_asc comparator h]

theorem do_sort_eq_sequential (xs : List α) (is_asc : Bool)
    (comparator : α → α → Ordering) :
    do_sort xs is_asc comparator = do_sort_sequential xs is_asc comparator := by
  suffices key : ∀ (n : Nat) (xs : List α), xs.length = n → ∀ (d : Bool),
      do_sort xs d comparator = do_sort_sequential xs d comparator from
    key xs.length xs rfl is_asc
  intro n
  induction n using Nat.strong_induction_on with
  | _ n ih =>
  intro xs hn d
  subst hn
  by_cases h : 1 < xs.length
  · rw [do_sort_of_lt xs d comparator h, do_sort_sequential_of_lt xs d comparator h,
      ih (xs.take (xs.length / 2)).length (by simp only [List.length_take]; omega) _ rfl true,
      ih (xs.drop (xs.length / 2)).length (by simp only [List.length_drop]; omega) _ rfl false,
      sub_sort_eq_sequential]
  · rw [do_sort_of_not_lt xs d comparator h,
      do_sort_sequential_of_not_lt xs d comparator h]

theorem sub_sort_fuel_complete :
    ∀ (fuel : Nat) (xs : List α) (is_asc : Bool) (comparator : α → α → Ordering),
      xs.length ≤ fuel →
      sub_sort_fuel fuel xs is_asc comparator = some (sub_sort xs is_asc comparator) := by
  intro fuel
  induction fuel using Nat.strong_induction_on with
  | _ fuel ih =>
  intro xs is_asc comparator hle
  by_cases h : 1 < xs.length
  · match fuel, hle with
    | 0, hle => exact absurd hle (by omega)
    | f + 1, hle =>
      rw [sub_sort_fuel, if_pos h]
      have hzlen : (compare_and_swap xs is_asc comparator).length = xs.length :=
        length_compare_and_swap ..
      rw [ih f (by omega) _ is_asc comparator
          (by simp only [List.length_take]; omega),
        ih f (by omega) _ is_asc comparator
          (by simp only [List.length_drop]; omega)]
      rw [sub_sort_of_lt xs is_asc comparator h]
  · rw [sub_sort_fuel.eq_def, if_neg h, sub_sort_of_not_lt xs is_asc comparator h]

theorem do_sort_fuel_complete :
    ∀ (fuel : Nat) (xs : List α) (is_asc : Bool) (comparator : α → α → Ordering),
      xs.length ≤ fuel →
      do_sort_fuel fuel xs is_asc comparator = some (do_sort xs is_asc comparator) := by
  intro fuel
  induction fuel using Nat.strong_induction_on with
  | _ fuel ih =>
  intro xs is_asc comparator hle
  by_cases h : 1 < xs.length
  · match fuel, hle with
    | 0, hle => exact absurd hle (by omega)
    | f + 1, hle =>
      rw [do_sort_fuel, if_pos h]
      rw [ih f (by omega) (xs.take (xs.length / 2)) true comparator
          (by simp only [List.length_take]; omega),
        ih f (by omega) (xs.drop (xs.length / 2)) false comparator
          (by simp only [List.length_drop]; omega)]
      show sub_sort_fuel (f + 1)
          (do_sort (xs.take (xs.length / 2)) true comparator
            ++ do_sort (xs.drop (xs.length / 2)) false comparator) is_asc comparator
        = some (do_sort xs is_asc comparator)
      rw [sub_sort_fuel_complete (f + 1) _ is_asc comparator
          (by simp only [List.length_append, do_sort_length, List.length_take,
            List.length_drop]; omega),
        do_sort_of_lt xs is_asc comparator h]
  · rw [do_sort_fuel.eq_def, if_neg h, do_sort_of_not_lt xs is_asc comparator h]

theorem compare_and_swap_getElem_pair (xs : List α) (is_asc : Bool)
    (comparator : α → α → Ordering) (i : Nat) (x y : α)
    (hi : i < xs.length / 2) (hx : xs[i]? = some x)
    (hy : xs[xs.length / 2 + i]? = some y) :
    (compare_and_swap xs is_asc comparator)[i]? =
      some (if comparator x y == (if is_asc then Ordering.gt else Ordering.lt)
        then y else x) ∧
    (compare_and_swap xs is_asc comparator)[xs.length / 2 + i]? =
      some (if comparator x y == (if is_asc then Ordering.gt else Ordering.lt)
        then x else y) := by
  have hmid : xs.length / 2 ≤ xs.length - xs.length / 2 := by omega
  have hlow : (List.zipWith
      (fun a b => if comparator a b == (if is_asc then Ordering.gt else Ordering.lt)
        then b else a)
      (xs.take (xs.length / 2)) (xs.drop (xs.length / 2))).length = xs.length / 2 := by
    simp only [List.length_zipWith, List.length_take, List.length_drop]
    omega
  have hhigh : (List.zipWith
      (fun a b => if comparator a b == (if is_asc then Ordering.gt else Ordering.lt)
        then a else b)
      (xs.take (xs.length / 2)) (xs.drop (xs.length / 2))).length = xs.length / 2 := by
    simp only [List.length_zipWith, List.length_take, List.length_drop]
    omega
  have hfx : (xs.take (xs.length / 2))[i]? = some x := by
    rw [List.getElem?_take, if_pos hi]
    exact hx
  have hfy : (xs.drop (xs.length / 2))[i]? = some y := by
    rw [List.getElem?_drop]
    exact hy
  constructor
  · rw [compare_and_swap]
    rw [List.getElem?_append, if_pos (by rw [List.length_append, hlow, hhigh]; omega),
      List.getElem?_append, if_pos (by rw [hlow]; omega), List.getElem?_zipWith,
      hfx, hfy]
  · rw [compare_and_swap]
    rw [List.getElem?_append, if_pos (by rw [List.length_append, hlow, hhigh]; omega),
      List.getElem?_append, if_neg (by rw [hlow]; omega), List.getElem?_zipWith,
      hlow, show xs.length / 2 + i - xs.length / 2 = i from by omega, hfx, hfy]

theorem compare_and_swap_getElem_tail (xs : List α) (is_asc : Bool)
    (comparator : α → α → Ordering) (j : Nat)
    (hj : 2 * (xs.length / 2) ≤ j) :
    (compare_and_swap xs is_asc comparator)[j]? = xs[j]? := by
  have hlow : (List.zipWith
      (fun a b => if comparator a b == (if is_asc then Ordering.gt else Ordering.lt)
        then b else a)
      (xs.take (xs.length / 2)) (xs.drop (xs.length / 2))).length = xs.length / 2 := by
    simp only [List.length_zipWith, List.length_take, List.length_drop]
    omega
  have hhigh : (List.zipWith
      (fun a b => if comparator a b == (if is_asc then Ordering.gt else Ordering.lt)
        then a else b)
      (xs.take (xs.length / 2)) (xs.drop (xs.length / 2))).length = xs.length / 2 := by
    simp only [List.length_zipWith, List.length_take, List.length_drop]
    omega
  have htk : (xs.take (xs.length / 2)).length = xs.length / 2 := by
    simp only [List.length_take]
    omega
  rw [compare_and_swap]
  rw [List.getElem?_append, if_neg (by rw [List.length_append, hlow, hhigh]; omega),
    List.length_append, hlow, hhigh, htk, List.getElem?_drop, List.getElem?_drop]
  congr 1
  omega

/-- C1: for every power-of-two-length sequence of a totally ordered
element type, `sort(x, Ascending)` returns success and leaves the
sequence non-decreasing under the natural order and a permutation (same
multiset) of the input. -/
theorem sort_ascending_correct [LinearOrder α] (xs : List α) (k : Nat)
    (hlen : xs.length = 2 ^ k) :
    (sort xs SortOrder.Ascending).1 = Except.ok () ∧
    List.Sorted (· ≤ ·) (sort xs SortOrder.Ascending).2 ∧
    ((sort xs SortOrder.Ascending).2).Perm xs := by
  have hp : is_power_of_two xs.length = true := by
    rw [hlen]
    exact is_power_of_two_two_pow k
  have hs : sort xs SortOrder.Ascending =
      (Except.ok (), do_sort xs true (fun a b => compare a b)) := by
    simp only [sort, sort_by, hp, if_true]
  rw [hs]
  exact ⟨rfl, do_sort_sorted_asc k xs hlen, do_sort_perm xs true _⟩

theorem sort_ascending_correct_witness :
    (sort ([10, 30, 11, 20, 4, 330, 21, 110] : List Nat) SortOrder.Ascending).1
      = Except.ok () ∧
    List.Sorted (· ≤ ·)
      (sort ([10, 30, 11, 20, 4, 330, 21, 110] : List Nat) SortOrder.Ascending).2 ∧
    ((sort ([10, 30, 11, 20, 4, 330, 21, 110] : List Nat) SortOrder.Ascending).2).Perm
      [10, 30, 11, 20, 4, 330, 21, 110] :=
  sort_ascending_correct [10, 30, 11, 20, 4, 330, 21, 110] 3 (by decide)

/-- C2 (counterexample): contrary to the claim that length 0 is accepted,
the code's validation (`usize::is_power_of_two`, false at 0) rejects the
empty sequence: `sort` and `sort_by` on `[]` return the length error, not
success. -/
theorem sort_empty_returns_error :
    (sort ([] : List Nat) SortOrder.Ascending).1 =
      Except.error "The length of x is not a power of two. (x.len(): 0)" ∧
    (sort_by ([] : List Nat) (fun a b => compare a b)).1 ≠ Except.ok () := by
  constructor
  · rfl
  · intro h
    rw [show (sort_by ([] : List Nat) (fun a b => compare a b)).1 =
        Except.error "The length of x is not a power of two. (x.len(): 0)" from rfl] at h
    exact Except.noConfusion h

/-- C2 (amended): the length validation rejects 0 — `is_power_of_two 0`
is false — so `sort` and `sort_by` on a zero-length sequence return the
length error naming length 0 (leaving the sequence unchanged), while
every power of two `2 ^ k` is accepted. -/
theorem zero_length_rejected [LinearOrder α] (xs : List α)
    (comparator : α → α → Ordering) (order : SortOrder) (h : xs.length = 0) :
    is_power_of_two 0 = false ∧
    sort_by xs comparator =
      (Except.error "The length of x is not a power of two. (x.len(): 0)", xs) ∧
    sort xs order =
      (Except.error "The length of x is not a power of two. (x.len(): 0)", xs) ∧
    (∀ k : Nat, is_power_of_two (2 ^ k) = true) := by
  have hby : ∀ c : α → α → Ordering, sort_by xs c =
      (Except.error "The length of x is not a power of two. (x.len(): 0)", xs) := by
    intro c
    simp only [sort_by, h]
    rfl
  refine ⟨rfl, hby comparator, ?_, is_power_of_two_two_pow⟩
  cases order
  · exact hby _
  · exact hby _

theorem zero_length_rejected_witness :
    is_power_of_two 0 = false ∧
    sort_by ([] : List Nat) (fun a b => compare a b) =
      (Except.error "The length of x is not a power of two. (x.len(): 0)", []) ∧
    sort ([] : List Nat) SortOrder.Ascending =
      (Except.error "The length of x is not a power of two. (x.len(): 0)", []) ∧
    (∀ k : Nat, is_power_of_two (2 ^ k) = true) :=
  zero_length_rejected [] (fun a b => compare a b) SortOrder.Ascending rfl

/-- C3: for every sequence whose length is not a power of two, `sort` and
`sort_by` return the length error whose message includes the offending
length and leave the sequence unchanged; for every power-of-two length
they return success; and the only error value this interface can produce
is that message, produced exactly when validation fails, with the
sequence untouched. -/
theorem sort_length_validation [LinearOrder α] (xs : List α)
    (comparator : α → α → Ordering) (order : SortOrder) :
    (¬ (∃ k, xs.length = 2 ^ k) →
      sort_by xs comparator =
        (Except.error ("The length of x is not a power of two. (x.len(): "
          ++ toString xs.length ++ ")"), xs) ∧
      sort xs order =
        (Except.error ("The length of x is not a power of two. (x.len(): "
          ++ toString xs.length ++ ")"), xs)) ∧
    ((∃ k, xs.length = 2 ^ k) →
      (sort_by xs comparator).1 = Except.ok () ∧
      (sort xs order).1 = Except.ok ()) ∧
    (∀ e, (sort_by xs comparator).1 = Except.error e →
      e = ("The length of x is not a power of two. (x.len(): "
        ++ toString xs.length ++ ")") ∧
      ¬ (∃ k, xs.length = 2 ^ k) ∧ (sort_by xs comparator).2 = xs) := by
  by_cases hp : ∃ k, xs.length = 2 ^ k
  · have hpt : is_power_of_two xs.length = true := (is_power_of_two_iff _).mpr hp
    refine ⟨fun hn => absurd hp hn, fun _ => ⟨?_, ?_⟩, fun e he => ?_⟩
    · simp only [sort_by, hpt, if_true]
    · cases order <;> simp only [sort, sort_by, hpt, if_true]
    · simp only [sort_by, hpt, if_true] at he
      exact absurd he (by simp)
  · have hpf : is_power_of_two xs.length = false := is_power_of_two_eq_false hp
    have hby : sort_by xs comparator =
        (Except.error ("The length of x is not a power of two. (x.len(): "
          ++ toString xs.length ++ ")"), xs) := by
      simp only [sort_by, hpf]
      rfl
    refine ⟨fun _ => ⟨hby, ?_⟩, fun hk => absurd hk hp, fun e he => ?_⟩
    · cases order <;>
        simp only [sort, sort_by, hpf, Bool.false_eq_true, if_false]
    · rw [hby] at he
      exact ⟨(Except.error.inj he).symm, hp, by rw [hby]⟩

theorem sort_length_validation_witness :
    sort_by ([10, 30, 11] : List Nat) (fun a b => compare a b) =
      (Except.error ("The length of x is not a power of two. (x.len(): "
        ++ toString ([10, 30, 11] : List Nat).length ++ ")"), [10, 30, 11]) ∧
    sort ([10, 30, 11] : List Nat) SortOrder.Ascending =
      (Except.error ("The length of x is not a power of two. (x.len(): "
        ++ toString ([10, 30, 11] : List Nat).length ++ ")"), [10, 30, 11]) :=
  (sort_length_validation [10, 30, 11] (fun a b => compare a b) SortOrder.Ascending).1
    (fun hex => absurd ((is_power_of_two_iff 3).mpr hex) (by decide))

/-- C4: for every power-of-two-length sequence of a totally ordered type,
`sort(x, Descending)` returns success and leaves the sequence
non-increasing and a permutation of the input; its comparator is the
operand-swapped natural comparator: `Descending(a,b) = Ascending(b,a)`. -/
theorem sort_descending_correct [LinearOrder α] (xs : List α) (k : Nat)
    (hlen : xs.length = 2 ^ k) :
    (∀ a b : α, (fun x y : α => compare y x) a b = (fun x y : α => compare x y) b a) ∧
    (sort xs SortOrder.Descending).1 = Except.ok () ∧
    List.Sorted (· ≥ ·) (sort xs SortOrder.Descending).2 ∧
    ((sort xs SortOrder.Descending).2).Perm xs := by
  have hp : is_power_of_two xs.length = true := by
    rw [hlen]
    exact is_power_of_two_two_pow k
  have hs : sort xs SortOrder.Descending =
      (Except.ok (), do_sort xs true (fun a b => compare b a)) := by
    simp only [sort, sort_by, hp, if_true]
  rw [hs]
  exact ⟨fun a b => rfl, rfl, do_sort_flip_sorted_desc k xs hlen, do_sort_perm xs true _⟩

theorem sort_descending_correct_witness :
    (∀ a b : Nat, (fun x y : Nat => compare y x) a b
      = (fun x y : Nat => compare x y) b a) ∧
    (sort ([10, 30, 11, 20, 4, 330, 21, 110] : List Nat) SortOrder.Descending).1
      = Except.ok () ∧
    List.Sorted (· ≥ ·)
      (sort ([10, 30, 11, 20, 4, 330, 21, 110] : List Nat) SortOrder.Descending).2 ∧
    ((sort ([10, 30, 11, 20, 4, 330, 21, 110] : List Nat) SortOrder.Descending).2).Perm
      [10, 30, 11, 20, 4, 330, 21, 110] :=
  sort_descending_correct [10, 30, 11, 20, 4, 330, 21, 110] 3 (by decide)

/-- C5: for every comparator, every successful `sort`/`sort_by` leaves
the sequence a permutation of the input (same multiset: nothing created,
lost or duplicated), and the one mutating primitive, the
compare-and-swap pass, is itself multiset-preserving for arbitrary
comparators. -/
theorem sort_preserves_multiset [LinearOrder α] (xs : List α)
    (comparator : α → α → Ordering) (order : SortOrder) (is_asc : Bool) :
    ((sort_by xs comparator).1 = Except.ok () → ((sort_by xs comparator).2).Perm xs) ∧
    ((sort xs order).1 = Except.ok () → ((sort xs order).2).Perm xs) ∧
    (compare_and_swap xs is_asc comparator).Perm xs := by
  have hby : ∀ c : α → α → Ordering, ((sort_by xs c).2).Perm xs := by
    intro c
    by_cases hp : is_power_of_two xs.length
    · simp only [sort_by, hp, if_true]
      exact do_sort_perm xs true c
    · simp only [sort_by, hp, Bool.false_eq_true, if_false]
      exact List.Perm.refl xs
  refine ⟨fun _ => hby comparator, fun _ => ?_, compare_and_swap_perm xs is_asc comparator⟩
  cases order
  · exact hby _
  · exact hby _

theorem sort_preserves_multiset_witness :
    ((sort_by ([2, 1] : List Nat) (fun a b => compare a b)).2).Perm [2, 1] ∧
    ((sort ([2, 1] : List Nat) SortOrder.Ascending).2).Perm [2, 1] ∧
    (compare_and_swap ([2, 1] : List Nat) true (fun a b => compare a b)).Perm [2, 1] :=
  ⟨(sort_preserves_multiset [2, 1] (fun a b => compare a b) SortOrder.Ascending true).1 rfl,
   (sort_preserves_multiset [2, 1] (fun a b => compare a b) SortOrder.Ascending true).2.1 rfl,
   (sort_preserves_multiset [2, 1] (fun a b => compare a b) SortOrder.Ascending true).2.2⟩

/-- C6: the compare-and-swap pass over a subrange keeps the length; for
each `i < n/2` it compares element `i` with element `i + n/2` and
exchanges the pair iff the comparator answers `Greater` (ascending) or
`Less` (descending) — in particular an `Equal` outcome never swaps — and
every position from `2*(n/2)` on is untouched. -/
theorem compare_and_swap_pass_spec (xs : List α) (is_asc : Bool)
    (comparator : α → α → Ordering) :
    (compare_and_swap xs is_asc comparator).length = xs.length ∧
    (∀ i x y, i < xs.length / 2 → xs[i]? = some x →
      xs[xs.length / 2 + i]? = some y →
      ((comparator x y = (if is_asc then Ordering.gt else Ordering.lt) →
          (compare_and_swap xs is_asc comparator)[i]? = some y ∧
          (compare_and_swap xs is_asc comparator)[xs.length / 2 + i]? = some x) ∧
       (comparator x y ≠ (if is_asc then Ordering.gt else Ordering.lt) →
          (compare_and_swap xs is_asc comparator)[i]? = some x ∧
          (compare_and_swap xs is_asc comparator)[xs.length / 2 + i]? = some y) ∧
       (comparator x y = Ordering.eq →
          (compare_and_swap xs is_asc comparator)[i]? = some x ∧
          (compare_and_swap xs is_asc comparator)[xs.length / 2 + i]? = some y))) ∧
    (∀ j, 2 * (xs.length / 2) ≤ j →
      (compare_and_swap xs is_asc comparator)[j]? = xs[j]?) := by
  refine ⟨length_compare_and_swap xs is_asc comparator, ?_,
    fun j hj => compare_and_swap_getElem_tail xs is_asc comparator j hj⟩
  intro i x y hi hx hy
  obtain ⟨h1, h2⟩ :=
    compare_and_swap_getElem_pair xs is_asc comparator i x y hi hx hy
  have hfalse : ∀ hne : comparator x y ≠ (if is_asc then Ordering.gt else Ordering.lt),
      (comparator x y == (if is_asc then Ordering.gt else Ordering.lt)) = false := by
    intro hne
    cases hb : (comparator x y == (if is_asc then Ordering.gt else Ordering.lt))
    · rfl
    · exact absurd ((ordering_beq_iff _ _).mp hb) hne
  refine ⟨fun hc => ?_, fun hc => ?_, fun hc => ?_⟩
  · have hb : (comparator x y == (if is_asc then Ordering.gt else Ordering.lt)) = true :=
      (ordering_beq_iff _ _).mpr hc
    rw [h1, h2, if_pos hb, if_pos hb]
    exact ⟨rfl, rfl⟩
  · rw [h1, h2, if_neg (by rw [hfalse hc]; exact Bool.false_ne_true),
      if_neg (by rw [hfalse hc]; exact Bool.false_ne_true)]
    exact ⟨rfl, rfl⟩
  · have hne : comparator x y ≠ (if is_asc then Ordering.gt else Ordering.lt) := by
      rw [hc]
      cases is_asc <;> decide
    rw [h1, h2, if_neg (by rw [hfalse hne]; exact Bool.false_ne_true),
      if_neg (by rw [hfalse hne]; exact Bool.false_ne_true)]
    exact ⟨rfl, rfl⟩

theorem compare_and_swap_pass_spec_witness :
    (compare_and_swap ([2, 1] : List Nat) true (fun a b => compare a b)).length
      = ([2, 1] : List Nat).length ∧
    (∀ i x y, i < ([2, 1] : List Nat).length / 2 → ([2, 1] : List Nat)[i]? = some x →
      ([2, 1] : List Nat)[([2, 1] : List Nat).length / 2 + i]? = some y →
      ((compare x y = (if true then Ordering.gt else Ordering.lt) →
          (compare_and_swap ([2, 1] : List Nat) true (fun a b => compare a b))[i]?
            = some y ∧
          (compare_and_swap ([2, 1] : List Nat) true
            (fun a b => compare a b))[([2, 1] : List Nat).length / 2 + i]? = some x) ∧
       (compare x y ≠ (if true then Ordering.gt else Ordering.lt) →
          (compare_and_swap ([2, 1] : List Nat) true (fun a b => compare a b))[i]?
            = some x ∧
          (compare_and_swap ([2, 1] : List Nat) true
            (fun a b => compare a b))[([2, 1] : List Nat).length / 2 + i]? = some y) ∧
       (compare x y = Ordering.eq →
          (compare_and_swap ([2, 1] : List Nat) true (fun a b => compare a b))[i]?
            = some x ∧
          (compare_and_swap ([2, 1] : List Nat) true
            (fun a b => compare a b))[([2, 1] : List Nat).length / 2 + i]? = some y))) ∧
    (∀ j, 2 * (([2, 1] : List Nat).length / 2) ≤ j →
      (compare_and_swap ([2, 1] : List Nat) true (fun a b => compare a b))[j]?
        = ([2, 1] : List Nat)[j]?) :=
  compare_and_swap_pass_spec [2, 1] true (fun a b => compare a b)

/-- C7: after the construct phase of the recursive sort on a subrange of
power-of-two size (first half sorted ascending, second half sorted
descending, both under the total-order comparator), the subrange is
bitonic: a non-decreasing run followed by a non-increasing run, and still
a permutation of the subrange. -/
theorem construct_phase_bitonic [LinearOrder α] (xs : List α) (k : Nat)
    (hlen : xs.length = 2 ^ (k + 1)) :
    ∃ us vs,
      do_sort (xs.take (xs.length / 2)) true (fun a b => compare a b)
        ++ do_sort (xs.drop (xs.length / 2)) false (fun a b => compare a b)
        = us ++ vs ∧
      List.Sorted (· ≤ ·) us ∧ List.Sorted (· ≥ ·) vs ∧
      (us ++ vs).Perm xs := by
  refine ⟨do_sort (xs.take (xs.length / 2)) true (fun a b => compare a b),
    do_sort (xs.drop (xs.length / 2)) false (fun a b => compare a b), rfl,
    do_sort_sorted_asc k _ ?_, do_sort_sorted_desc k _ ?_, ?_⟩
  · simp only [List.length_take, hlen]
    rw [pow_succ]
    omega
  · simp only [List.length_drop, hlen]
    rw [pow_succ]
    omega
  · exact ((do_sort_perm _ true _).append (do_sort_perm _ false _)).trans
      (by rw [List.take_append_drop])

theorem construct_phase_bitonic_witness :
    ∃ us vs,
      do_sort (([3, 1, 4, 2] : List Nat).take (([3, 1, 4, 2] : List Nat).length / 2))
          true (fun a b => compare a b)
        ++ do_sort (([3, 1, 4, 2] : List Nat).drop (([3, 1, 4, 2] : List Nat).length / 2))
          false (fun a b => compare a b)
        = us ++ vs ∧
      List.Sorted (· ≤ ·) us ∧ List.Sorted (· ≥ ·) vs ∧
      (us ++ vs).Perm [3, 1, 4, 2] :=
  construct_phase_bitonic [3, 1, 4, 2] 1 (by decide)

/-- C8: the threshold decision never changes the result: the
threshold-gated recursion (whose parallel arm denotes the same two
recursive calls on the disjoint halves that `rayon::join` runs to
completion) computes exactly the sequential execution, for every input,
direction and comparator, in both the construct and the merge phase. -/
theorem threshold_parallel_eq_sequential (xs : List α) (is_asc : Bool)
    (comparator : α → α → Ordering) :
    do_sort xs is_asc comparator = do_sort_sequential xs is_asc comparator ∧
    sub_sort xs is_asc comparator = sub_sort_sequential xs is_asc comparator :=
  ⟨do_sort_eq_sequential xs is_asc comparator,
   sub_sort_eq_sequential xs is_asc comparator⟩

/-- C9: sorting is idempotent per direction: a power-of-two-length
sequence already sorted in a direction is returned unchanged (with
success) by `sort` in that same direction. -/
theorem sort_idempotent [LinearOrder α] (xs : List α) (k : Nat)
    (hlen : xs.length = 2 ^ k) :
    (List.Sorted (· ≤ ·) xs → sort xs SortOrder.Ascending = (Except.ok (), xs)) ∧
    (List.Sorted (· ≥ ·) xs → sort xs SortOrder.Descending = (Except.ok (), xs)) := by
  have hp : is_power_of_two xs.length = true := by
    rw [hlen]
    exact is_power_of_two_two_pow k
  constructor
  · intro hs
    have heq : do_sort xs true (fun a b : α => compare a b) = xs :=
      List.eq_of_perm_of_sorted (do_sort_perm xs true _)
        (do_sort_sorted_asc k xs hlen) hs
    simp only [sort, sort_by, hp, if_true, heq]
  · intro hs
    haveI : IsAntisymm α (· ≥ ·) := ⟨fun a b h1 h2 => le_antisymm h2 h1⟩
    have heq : do_sort xs true (fun a b : α => compare b a) = xs :=
      List.eq_of_perm_of_sorted (do_sort_perm xs true _)
        (do_sort_flip_sorted_desc k xs hlen) hs
    simp only [sort, sort_by, hp, if_true, heq]

theorem sort_idempotent_witness :
    sort ([1, 2] : List Nat) SortOrder.Ascending = (Except.ok (), [1, 2]) ∧
    sort ([2, 1] : List Nat) SortOrder.Descending = (Except.ok (), [2, 1]) :=
  ⟨(sort_idempotent [1, 2] 1 (by decide)).1 (by decide),
   (sort_idempotent [2, 1] 1 (by decide)).2 (by decide)⟩

/-- C10: the recursive engine terminates on every input: the fuel-indexed
execution, which charges one fuel unit per recursive call and recurses on
strictly shorter halves, completes within `length` fuel on every slice and
comparator, agreeing with the total functions `sub_sort` and `do_sort`. -/
theorem engine_terminates (fuel : Nat) (xs : List α) (is_asc : Bool)
    (comparator : α → α → Ordering) (h : xs.length ≤ fuel) :
    sub_sort_fuel fuel xs is_asc comparator = some (sub_sort xs is_asc comparator) ∧
    do_sort_fuel fuel xs is_asc comparator = some (do_sort xs is_asc comparator) :=
  ⟨sub_sort_fuel_complete fuel xs is_asc comparator h,
   do_sort_fuel_complete fuel xs is_asc comparator h⟩

theorem engine_terminates_witness :
    sub_sort_fuel 4 ([3, 1, 4, 2] : List Nat) true (fun a b => compare a b)
      = some (sub_sort [3, 1, 4, 2] true (fun a b => compare a b)) ∧
    do_sort_fuel 4 ([3, 1, 4, 2] : List Nat) true (fun a b => compare a b)
      = some (do_sort [3, 1, 4, 2] true (fun a b => compare a b)) :=
  engine_terminates 4 [3, 1, 4, 2] true (fun a b => compare a b) (by decide)

end BitonicSorter
